import Mathlib

set_option maxRecDepth 4096

/-!
Verification of the proof-encoding layer of the starcoin consensus crate
(`src/consensus/src/lib.rs`): the `Solution` fixed-size cycle-proof buffer
with its byte/u64 little-endian views, the `Algo` wire encoding, the
`set_header_nonce` header patcher and the `u256_to_vec` target encoder.

Machine integers are modelled as `Nat` with explicit bounds (`< 2^8`,
`< 2^32`, `< 2^64`, `< 2^256`); Rust operations that panic (slice-length
mismatches in `copy_from_slice` / `write_u64_into`, usize underflow in
`set_header_nonce`) are modelled as `Option`-returning functions whose
`none` branch is the panic.
-/

namespace Starcoin

/-- `pub const PROOF_SIZE: usize = 42;` -/
def PROOF_SIZE : Nat := 42

/-- `pub const CYCLE_LENGTH_U8: usize = PROOF_SIZE << 3;` -/
def CYCLE_LENGTH_U8 : Nat := PROOF_SIZE <<< 3

/-- Little-endian encoding of `x` into `w` bytes, least significant first.
This is the layout written by `byteorder::LittleEndian` (`write_u32`,
`write_u64_into`) and by `U256::to_little_endian`. -/
def natToLeBytes : Nat → Nat → List Nat
  | 0, _ => []
  | w + 1, x => x % 256 :: natToLeBytes w (x / 256)

/-- Little-endian decoding of a byte list, least significant byte first.
This is the layout read by `byteorder::LittleEndian::read_u64_into`. -/
def leBytesToNat : List Nat → Nat
  | [] => 0
  | b :: bs => b + 256 * leBytesToNat bs

theorem natToLeBytes_length (w x : Nat) : (natToLeBytes w x).length = w := by
  induction w generalizing x with
  | zero => rfl
  | succ w ih => simp [natToLeBytes, ih]

theorem natToLeBytes_lt (w x : Nat) : ∀ b ∈ natToLeBytes w x, b < 256 := by
  induction w generalizing x with
  | zero => intro b hb; simp [natToLeBytes] at hb
  | succ w ih =>
    intro b hb
    simp only [natToLeBytes, List.mem_cons] at hb
    rcases hb with h | h
    · exact h ▸ Nat.mod_lt _ (by norm_num)
    · exact ih _ b h

theorem leBytesToNat_natToLeBytes (w x : Nat) :
    leBytesToNat (natToLeBytes w x) = x % 256 ^ w := by
  induction w generalizing x with
  | zero => simp [natToLeBytes, leBytesToNat, Nat.mod_one]
  | succ w ih =>
    simp only [natToLeBytes, leBytesToNat, ih]
    rw [Nat.pow_succ, Nat.mul_comm (256 ^ w) 256, Nat.mod_mul]

theorem natToLeBytes_leBytesToNat (bs : List Nat) (h : ∀ b ∈ bs, b < 256) :
    natToLeBytes bs.length (leBytesToNat bs) = bs := by
  induction bs with
  | nil => rfl
  | cons b bs ih =>
    have hb : b < 256 := h b (List.mem_cons_self _ _)
    have hrest : ∀ x ∈ bs, x < 256 := fun x hx => h x (List.mem_cons_of_mem _ hx)
    simp only [List.length_cons, natToLeBytes, leBytesToNat]
    have h1 : (b + 256 * leBytesToNat bs) % 256 = b := by
      rw [Nat.add_mul_mod_self_left, Nat.mod_eq_of_lt hb]
    have h2 : (b + 256 * leBytesToNat bs) / 256 = leBytesToNat bs := by
      rw [Nat.add_mul_div_left _ _ (by norm_num : 0 < 256),
        Nat.div_eq_of_lt hb, Nat.zero_add]
    rw [h1, h2, ih hrest]

/-- `LittleEndian::write_u64_into(&s, &mut sol)`: each u64 lane is laid
down as 8 little-endian bytes, lanes in order. -/
def writeU64Into (s : List Nat) : List Nat :=
  s.flatMap (natToLeBytes 8)

/-- `LittleEndian::read_u64_into(&self.0, &mut dst)`: the byte buffer is
consumed 8 bytes at a time, each chunk decoded as a little-endian u64. -/
def readU64From (bs : List Nat) : List Nat :=
  if h : bs = [] then []
  else leBytesToNat (bs.take 8) :: readU64From (bs.drop 8)
termination_by bs.length
decreasing_by
  simp only [List.length_drop]
  exact Nat.sub_lt (List.length_pos.mpr h) (by norm_num)

theorem writeU64Into_length (s : List Nat) :
    (writeU64Into s).length = 8 * s.length := by
  induction s with
  | nil => rfl
  | cons x s ih =>
    simp only [writeU64Into, List.flatMap_cons, List.length_append,
      List.length_cons, natToLeBytes_length] at ih ⊢
    omega

theorem writeU64Into_lt (s : List Nat) : ∀ b ∈ writeU64Into s, b < 256 := by
  intro b hb
  simp only [writeU64Into, List.mem_flatMap] at hb
  obtain ⟨x, _, hbx⟩ := hb
  exact natToLeBytes_lt 8 x b hbx

/-- `Solution([u8; CYCLE_LENGTH_U8])`: a fixed-length 336-byte buffer. -/
structure Solution where
  buf : List Nat
  hlen : buf.length = CYCLE_LENGTH_U8

theorem Solution.ext_buf {s t : Solution} (h : s.buf = t.buf) : s = t := by
  cases s; cases t; simp only at h; subst h; rfl

/-- `impl Default for Solution`: the all-zero buffer. -/
def Solution.default : Solution :=
  ⟨List.replicate CYCLE_LENGTH_U8 0, List.length_replicate _ _⟩

/-- `impl PartialEq for Solution`: `self.0.to_vec() == other.0.to_vec()`. -/
def Solution.eqBytes (s t : Solution) : Bool :=
  s.buf == t.buf

/-- `impl Into<Vec<u8>> for Solution`: `self.0.to_vec()`. -/
def Solution.toBytes (s : Solution) : List Nat :=
  s.buf

/-- `impl From<Vec<u8>> for Solution`: `sol.copy_from_slice(&s)`, which
panics (`none`) unless the source has exactly `CYCLE_LENGTH_U8` bytes. -/
def Solution.fromBytes (s : List Nat) : Option Solution :=
  if h : s.length = CYCLE_LENGTH_U8 then some ⟨s, h⟩ else none

/-- `impl From<Vec<u64>> for Solution`:
`LittleEndian::write_u64_into(&s, &mut sol)` panics (`none`) unless the
destination length `CYCLE_LENGTH_U8` is exactly `8 * s.len()`. -/
def Solution.fromU64Vec (s : List Nat) : Option Solution :=
  if h : 8 * s.length = CYCLE_LENGTH_U8 then
    some ⟨writeU64Into s, (writeU64Into_length s).trans h⟩
  else none

/-- `impl From<[u64; PROOF_SIZE]> for Solution`: the array variant carries
its length in the type, so no panic branch exists. -/
def Solution.fromU64Array (s : List Nat) (h : s.length = PROOF_SIZE) : Solution :=
  ⟨writeU64Into s, by rw [writeU64Into_length, h]; rfl⟩

/-- `impl Into<[u64; PROOF_SIZE]> for Solution` (also the `Vec<u64>` view,
which is `.to_vec()` of it): `LittleEndian::read_u64_into(&self.0, &mut dst)`. -/
def Solution.toU64Array (s : Solution) : List Nat :=
  readU64From s.buf

/-- `Solution::hash()`: `blake2b(32, &[], &self.0)`; the BLAKE2b primitive
is an external collaborator, modelled as an arbitrary pure digest function
applied to the raw buffer. -/
def Solution.hashWith (blake : List Nat → List Nat) (s : Solution) : List Nat :=
  blake s.buf

theorem readU64From_writeU64Into (s : List Nat) (h : ∀ x ∈ s, x < 2 ^ 64) :
    readU64From (writeU64Into s) = s := by
  induction s with
  | nil => rw [writeU64Into]; rw [readU64From]; rfl
  | cons x s ih =>
    have hx : x < 2 ^ 64 := h x (List.mem_cons_self _ _)
    have hrest : ∀ y ∈ s, y < 2 ^ 64 := fun y hy => h y (List.mem_cons_of_mem _ hy)
    have hlane : (natToLeBytes 8 x).length = 8 := natToLeBytes_length 8 x
    have hne : writeU64Into (x :: s) ≠ [] := by
      simp only [writeU64Into, List.flatMap_cons]
      intro hcontra
      have := congrArg List.length hcontra
      simp [hlane] at this
    rw [readU64From, dif_neg hne]
    have hw : writeU64Into (x :: s) = natToLeBytes 8 x ++ writeU64Into s := by
      simp [writeU64Into, List.flatMap_cons]
    have htake : (writeU64Into (x :: s)).take 8 = natToLeBytes 8 x := by
      rw [hw, List.take_left' hlane]
    have hdrop : (writeU64Into (x :: s)).drop 8 = writeU64Into s := by
      rw [hw, List.drop_left' hlane]
    rw [htake, hdrop, ih hrest, leBytesToNat_natToLeBytes,
      Nat.mod_eq_of_lt (by exact_mod_cast hx)]

theorem writeU64Into_readU64From (bs : List Nat) (hdvd : 8 ∣ bs.length)
    (hlt : ∀ b ∈ bs, b < 256) : writeU64Into (readU64From bs) = bs := by
  by_cases hnil : bs = []
  · subst hnil; rw [readU64From]; rfl
  · have hpos : 0 < bs.length := List.length_pos.mpr hnil
    have h8 : 8 ≤ bs.length := Nat.le_of_dvd hpos hdvd
    have htake_len : (bs.take 8).length = 8 := by
      rw [List.length_take]; omega
    have htake_lt : ∀ b ∈ bs.take 8, b < 256 :=
      fun b hb => hlt b (List.mem_of_mem_take hb)
    have hdrop_dvd : 8 ∣ (bs.drop 8).length := by
      rw [List.length_drop]
      exact (Nat.dvd_sub' hdvd (Nat.dvd_refl 8))
    have hdrop_lt : ∀ b ∈ bs.drop 8, b < 256 :=
      fun b hb => hlt b (List.mem_of_mem_drop hb)
    rw [readU64From, dif_neg hnil]
    have hrec := writeU64Into_readU64From (bs.drop 8) hdrop_dvd hdrop_lt
    have hconv := natToLeBytes_leBytesToNat (bs.take 8) htake_lt
    rw [htake_len] at hconv
    simp only [writeU64Into, List.flatMap_cons] at hrec ⊢
    rw [hrec, hconv, List.take_append_drop]
termination_by bs.length
decreasing_by
  simp only [List.length_drop]
  exact Nat.sub_lt (List.length_pos.mpr hnil) (by norm_num)

theorem readU64From_length (bs : List Nat) (hdvd : 8 ∣ bs.length) :
    (readU64From bs).length = bs.length / 8 := by
  by_cases hnil : bs = []
  · subst hnil; rw [readU64From]; rfl
  · have hpos : 0 < bs.length := List.length_pos.mpr hnil
    have h8 : 8 ≤ bs.length := Nat.le_of_dvd hpos hdvd
    have hdrop_dvd : 8 ∣ (bs.drop 8).length := by
      rw [List.length_drop]
      exact (Nat.dvd_sub' hdvd (Nat.dvd_refl 8))
    rw [readU64From, dif_neg hnil]
    have hrec := readU64From_length (bs.drop 8) hdrop_dvd
    simp only [List.length_cons, hrec, List.length_drop]
    omega
termination_by bs.length
decreasing_by
  simp only [List.length_drop]
  exact Nat.sub_lt (List.length_pos.mpr hnil) (by norm_num)

/-- `pub enum Algo { CUCKOO, SCRYPT }` -/
inductive Algo
  | CUCKOO
  | SCRYPT
deriving DecidableEq

/-- `impl From<u32> for Algo`: `match algo { 0 => CUCKOO, 1 => SCRYPT, _ => CUCKOO }`. -/
def Algo.fromU32 (algo : Nat) : Algo :=
  match algo with
  | 0 => Algo.CUCKOO
  | 1 => Algo.SCRYPT
  | _ => Algo.CUCKOO

/-- `impl Into<u32> for Algo`: `CUCKOO => 0, SCRYPT => 1`. -/
def Algo.toU32 : Algo → Nat
  | Algo.CUCKOO => 0
  | Algo.SCRYPT => 1

/-- `pub struct Proof { solution, nonce: u32, algo, target: U256 }` -/
structure Proof where
  solution : Solution
  nonce : Nat
  algo : Algo
  target : Nat

/-- `U256::max_value()` -/
def U256_MAX : Nat := 2 ^ 256 - 1

/-- `impl Default for Proof`: default solution, nonce 0, CUCKOO,
`U256::max_value()` target. -/
def Proof.default : Proof :=
  { solution := Solution.default
    nonce := 0
    algo := Algo.CUCKOO
    target := U256_MAX }

/-- `pub fn set_header_nonce(header: &[u8], nonce: u32) -> Vec<u8>`:
truncate to `len - 4` (usize subtraction, fatal underflow when `len < 4`,
modelled as `none`), then append the 4 little-endian bytes of `nonce`. -/
def set_header_nonce (header : List Nat) (nonce : Nat) : Option (List Nat) :=
  if 4 ≤ header.length then
    some (header.take (header.length - 4) ++ natToLeBytes 4 nonce)
  else none

/-- `pub fn u256_to_vec(u: U256) -> Vec<u8>`: a 32-byte buffer filled by
`u.to_little_endian`. -/
def u256_to_vec (u : Nat) : List Nat :=
  natToLeBytes 32 u

theorem writeU64Into_cons (x : Nat) (s : List Nat) :
    writeU64Into (x :: s) = natToLeBytes 8 x ++ writeU64Into s := by
  simp [writeU64Into]

theorem writeU64Into_drop (s : List Nat) (k : Nat) :
    (writeU64Into s).drop (8 * k) = writeU64Into (s.drop k) := by
  induction s generalizing k with
  | nil => simp [writeU64Into]
  | cons x s ih =>
    cases k with
    | zero => simp
    | succ k =>
      have hlane : (natToLeBytes 8 x).length = 8 := natToLeBytes_length 8 x
      calc (writeU64Into (x :: s)).drop (8 * (k + 1))
          = ((writeU64Into (x :: s)).drop 8).drop (8 * k) := by
            rw [List.drop_drop]; ring_nf
        _ = (writeU64Into s).drop (8 * k) := by
            rw [writeU64Into_cons, List.drop_left' hlane]
        _ = writeU64Into ((x :: s).drop (k + 1)) := by
            rw [ih k, List.drop_succ_cons]

theorem writeU64Into_chunk (s : List Nat) (lane : Nat) (hl : lane < s.length) :
    ((writeU64Into s).drop (8 * lane)).take 8 = natToLeBytes 8 (s.getD lane 0) := by
  rw [writeU64Into_drop]
  have hcons : s.drop lane = s[lane] :: s.drop (lane + 1) :=
    List.drop_eq_getElem_cons hl
  have hgetD : s.getD lane 0 = s[lane] := List.getD_eq_getElem s 0 hl
  rw [hcons, hgetD, writeU64Into_cons,
    List.take_left' (natToLeBytes_length 8 _)]

theorem Solution.toU64Array_length (s : Solution) :
    s.toU64Array.length = PROOF_SIZE := by
  have hdvd : 8 ∣ s.buf.length := by rw [s.hlen]; decide
  rw [Solution.toU64Array, readU64From_length s.buf hdvd, s.hlen]
  decide

/-- Claim C1: for every header of length at least 4 and every 32-bit nonce,
`set_header_nonce` succeeds and returns a byte sequence of the same length
whose first `len - 4` bytes equal the input's and whose last 4 bytes are
the little-endian encoding of the nonce. -/
theorem set_header_nonce_spec (header : List Nat) (nonce : Nat)
    (hlen : 4 ≤ header.length) (hnonce : nonce < 2 ^ 32) :
    ∃ out, set_header_nonce header nonce = some out ∧
      out.length = header.length ∧
      out.take (header.length - 4) = header.take (header.length - 4) ∧
      out.drop (header.length - 4) = natToLeBytes 4 nonce ∧
      leBytesToNat (out.drop (header.length - 4)) = nonce := by
  refine ⟨header.take (header.length - 4) ++ natToLeBytes 4 nonce, ?_, ?_, ?_, ?_, ?_⟩
  · rw [set_header_nonce, if_pos hlen]
  · rw [List.length_append, List.length_take, natToLeBytes_length]
    omega
  · have htl : (header.take (header.length - 4)).length = header.length - 4 := by
      rw [List.length_take]; omega
    rw [List.take_left' htl]
  · have htl : (header.take (header.length - 4)).length = header.length - 4 := by
      rw [List.length_take]; omega
    rw [List.drop_left' htl]
  · have htl : (header.take (header.length - 4)).length = header.length - 4 := by
      rw [List.length_take]; omega
    rw [List.drop_left' htl, leBytesToNat_natToLeBytes]
    exact Nat.mod_eq_of_lt (by exact_mod_cast hnonce)

theorem set_header_nonce_spec_witness :
    ∃ out, set_header_nonce [10, 20, 30, 40, 50] 7 = some out ∧
      out.length = [10, 20, 30, 40, 50].length ∧
      out.take ([10, 20, 30, 40, 50].length - 4) =
        [10, 20, 30, 40, 50].take ([10, 20, 30, 40, 50].length - 4) ∧
      out.drop ([10, 20, 30, 40, 50].length - 4) = natToLeBytes 4 7 ∧
      leBytesToNat (out.drop ([10, 20, 30, 40, 50].length - 4)) = 7 :=
  set_header_nonce_spec [10, 20, 30, 40, 50] 7 (by decide) (by decide)

/-- Claim C2: constructing a `Solution` from 42 u64 lanes and reading it
back yields the lanes unchanged; the intermediate buffer is 336 bytes and
its `lane`-th 8-byte chunk is the little-endian encoding of lane `lane`;
conversely reading any solution buffer as lanes and rebuilding the buffer
is the identity, so the round-trip is lossless in both directions. -/
theorem solution_u64_roundtrip :
    (∀ (v : List Nat) (h : v.length = PROOF_SIZE), (∀ x ∈ v, x < 2 ^ 64) →
      (Solution.fromU64Array v h).toU64Array = v ∧
      (Solution.fromU64Array v h).buf.length = CYCLE_LENGTH_U8 ∧
      (∀ lane, lane < PROOF_SIZE →
        (((Solution.fromU64Array v h).buf.drop (8 * lane)).take 8 =
          natToLeBytes 8 (v.getD lane 0)))) ∧
    (∀ s : Solution, (∀ b ∈ s.buf, b < 256) →
      Solution.fromU64Array s.toU64Array s.toU64Array_length = s) := by
  constructor
  · intro v h hbound
    refine ⟨?_, ?_, ?_⟩
    · exact readU64From_writeU64Into v hbound
    · rw [Solution.fromU64Array, writeU64Into_length, h]; rfl
    · intro lane hlane
      exact writeU64Into_chunk v lane (by omega)
  · intro s hbytes
    apply Solution.ext_buf
    have hdvd : 8 ∣ s.buf.length := by rw [s.hlen]; decide
    exact writeU64Into_readU64From s.buf hdvd hbytes

theorem solution_u64_roundtrip_witness :
    (Solution.fromU64Array (List.replicate 42 0) (by decide)).toU64Array =
        List.replicate 42 0 ∧
      Solution.fromU64Array Solution.default.toU64Array
          Solution.default.toU64Array_length = Solution.default :=
  ⟨(solution_u64_roundtrip.1 (List.replicate 42 0) (by decide)
      (fun x hx => by simp_all)).1,
    solution_u64_roundtrip.2 Solution.default
      (fun b hb => by
        have : b = 0 := List.eq_of_mem_replicate hb
        omega)⟩

/-- Claim C3: constructing a `Solution` from any byte sequence of length
exactly `CYCLE_LENGTH_U8 = 336` succeeds, and converting back to bytes
yields the sequence unchanged. -/
theorem solution_bytes_roundtrip (b : List Nat) (h : b.length = CYCLE_LENGTH_U8) :
    ∃ sol, Solution.fromBytes b = some sol ∧ sol.toBytes = b := by
  refine ⟨⟨b, h⟩, ?_, rfl⟩
  rw [Solution.fromBytes, dif_pos h]

theorem solution_bytes_roundtrip_witness :
    ∃ sol, Solution.fromBytes (List.replicate 336 3) = some sol ∧
      sol.toBytes = List.replicate 336 3 :=
  solution_bytes_roundtrip (List.replicate 336 3)
    (by simp [CYCLE_LENGTH_U8, PROOF_SIZE])

/-- Claim C4: `Algo` decoding is total (every integer yields `CUCKOO` or
`SCRYPT`), 0 decodes to `CUCKOO`, 1 to `SCRYPT`, every other value to
`CUCKOO`; encoding maps `CUCKOO` to 0 and `SCRYPT` to 1, so
decode-then-encode round-trips at 0 and 1. -/
theorem algo_decode_encode_spec :
    (∀ n : Nat, Algo.fromU32 n = Algo.CUCKOO ∨ Algo.fromU32 n = Algo.SCRYPT) ∧
    Algo.fromU32 0 = Algo.CUCKOO ∧ Algo.fromU32 1 = Algo.SCRYPT ∧
    (∀ n : Nat, n ≠ 0 → n ≠ 1 → Algo.fromU32 n = Algo.CUCKOO) ∧
    Algo.toU32 Algo.CUCKOO = 0 ∧ Algo.toU32 Algo.SCRYPT = 1 ∧
    (Algo.fromU32 0).toU32 = 0 ∧ (Algo.fromU32 1).toU32 = 1 := by
  refine ⟨?_, rfl, rfl, ?_, rfl, rfl, rfl, rfl⟩
  · intro n
    match n with
    | 0 => exact Or.inl rfl
    | 1 => exact Or.inr rfl
    | _ + 2 => exact Or.inl rfl
  · intro n h0 h1
    match n with
    | 0 => exact absurd rfl h0
    | 1 => exact absurd rfl h1
    | _ + 2 => rfl

theorem algo_decode_encode_spec_witness :
    Algo.fromU32 7 = Algo.CUCKOO :=
  algo_decode_encode_spec.2.2.2.1 7 (by decide) (by decide)

/-- Claim C5: `Solution::from(Vec<u8>)` fails (the panic branch, modelled
as `none`) whenever the input length differs from `CYCLE_LENGTH_U8`, and
under the length-336 precondition it succeeds, so the failure branch is
unreachable for well-formed input. -/
theorem solution_fromBytes_length_guard (s : List Nat) :
    (s.length ≠ CYCLE_LENGTH_U8 → Solution.fromBytes s = none) ∧
    (s.length = CYCLE_LENGTH_U8 →
      ∃ sol, Solution.fromBytes s = some sol ∧ sol.buf = s) := by
  constructor
  · intro hne
    rw [Solution.fromBytes, dif_neg hne]
  · intro heq
    exact ⟨⟨s, heq⟩, by rw [Solution.fromBytes, dif_pos heq], rfl⟩

theorem solution_fromBytes_length_guard_witness :
    Solution.fromBytes [1, 2, 3] = none ∧
      ∃ sol, Solution.fromBytes (List.replicate 336 0) = some sol ∧
        sol.buf = List.replicate 336 0 :=
  ⟨(solution_fromBytes_length_guard [1, 2, 3]).1 (by decide),
    (solution_fromBytes_length_guard (List.replicate 336 0)).2
      (by simp [CYCLE_LENGTH_U8, PROOF_SIZE])⟩

/-- Claim C6: `Solution` equality is exactly equality of the raw byte
content, and `hash()` is deterministic: any pure digest function applied
to equal raw contents yields equal digests. -/
theorem solution_hash_deterministic (blake : List Nat → List Nat)
    (s t : Solution) :
    (s.eqBytes t = true ↔ s.buf = t.buf) ∧
    (s.eqBytes t = true ↔ s = t) ∧
    (s.eqBytes t = true →
      Solution.hashWith blake s = Solution.hashWith blake t) := by
  have hbytes : s.eqBytes t = true ↔ s.buf = t.buf := by
    rw [Solution.eqBytes, beq_iff_eq]
  refine ⟨hbytes, ⟨fun h => Solution.ext_buf (hbytes.mp h), fun h => ?_⟩, fun h => ?_⟩
  · rw [hbytes, h]
  · rw [Solution.hashWith, Solution.hashWith, hbytes.mp h]

theorem solution_hash_deterministic_witness :
    Solution.hashWith List.reverse Solution.default =
      Solution.hashWith List.reverse Solution.default :=
  (solution_hash_deterministic List.reverse Solution.default
    Solution.default).2.2 (by rw [Solution.eqBytes, beq_iff_eq])

/-- Claim C7: for every 256-bit value `u`, `u256_to_vec u` is a 32-byte
buffer of bytes, and decoding it as a little-endian integer yields `u`
back. -/
theorem u256_to_vec_spec (u : Nat) (h : u < 2 ^ 256) :
    (u256_to_vec u).length = 32 ∧
      leBytesToNat (u256_to_vec u) = u ∧
      ∀ b ∈ u256_to_vec u, b < 256 := by
  refine ⟨natToLeBytes_length 32 u, ?_, natToLeBytes_lt 32 u⟩
  rw [u256_to_vec, leBytesToNat_natToLeBytes]
  have h256 : (256 : Nat) ^ 32 = 2 ^ 256 := by norm_num
  rw [h256]
  exact Nat.mod_eq_of_lt h

theorem u256_to_vec_spec_witness :
    (u256_to_vec 123456789).length = 32 ∧
      leBytesToNat (u256_to_vec 123456789) = 123456789 ∧
      ∀ b ∈ u256_to_vec 123456789, b < 256 :=
  u256_to_vec_spec 123456789 (by norm_num)

/-- Claim C8: the default `Proof` has algorithm `CUCKOO`, nonce 0, the
all-zero 336-byte solution, and the maximal `U256` target (no 256-bit
value exceeds it). -/
theorem proof_default_spec :
    Proof.default.algo = Algo.CUCKOO ∧
    Proof.default.nonce = 0 ∧
    Proof.default.solution.buf = List.replicate CYCLE_LENGTH_U8 0 ∧
    Proof.default.target = 2 ^ 256 - 1 ∧
    ∀ u : Nat, u < 2 ^ 256 → u ≤ Proof.default.target := by
  refine ⟨rfl, rfl, rfl, rfl, fun u hu => ?_⟩
  have ht : Proof.default.target = 2 ^ 256 - 1 := rfl
  omega

theorem proof_default_spec_witness :
    (123456 : Nat) ≤ Proof.default.target :=
  proof_default_spec.2.2.2.2 123456 (by norm_num)

/-- Claim C9: `set_header_nonce` is not total — for any header shorter
than 4 bytes the `len - 4` subtraction underflows, modelled as the `none`
branch, so the length precondition is necessary. -/
theorem set_header_nonce_underflow (header : List Nat) (nonce : Nat)
    (h : header.length < 4) : set_header_nonce header nonce = none := by
  rw [set_header_nonce, if_neg (by omega)]

theorem set_header_nonce_underflow_witness :
    set_header_nonce [1, 2] 0 = none :=
  set_header_nonce_underflow [1, 2] 0 (by decide)

/-- Claim C10: `Solution::from(Vec<u64>)` fails (the `write_u64_into`
length panic, modelled as `none`) unless the vector has exactly
`PROOF_SIZE = 42` elements; under that precondition it succeeds and the
failure branch is unreachable. -/
theorem solution_fromU64Vec_length_guard (s : List Nat) :
    (s.length ≠ PROOF_SIZE → Solution.fromU64Vec s = none) ∧
    (s.length = PROOF_SIZE →
      ∃ sol, Solution.fromU64Vec s = some sol ∧ sol.buf = writeU64Into s) := by
  constructor
  · intro hne
    rw [Solution.fromU64Vec, dif_neg]
    intro hcontra
    have : CYCLE_LENGTH_U8 = 336 := by decide
    have : PROOF_SIZE = 42 := by decide
    omega
  · intro heq
    have hlen : 8 * s.length = CYCLE_LENGTH_U8 := by
      rw [heq]; decide
    exact ⟨⟨writeU64Into s, (writeU64Into_length s).trans
        (by rw [heq]; decide)⟩,
      by rw [Solution.fromU64Vec, dif_pos hlen], rfl⟩

theorem solution_fromU64Vec_length_guard_witness :
    Solution.fromU64Vec [1, 2, 3] = none ∧
      ∃ sol, Solution.fromU64Vec (List.replicate 42 5) = some sol ∧
        sol.buf = writeU64Into (List.replicate 42 5) :=
  ⟨(solution_fromU64Vec_length_guard [1, 2, 3]).1 (by decide),
    (solution_fromU64Vec_length_guard (List.replicate 42 5)).2 (by decide)⟩

end Starcoin
